import Mathlib

/-!
Verification of the response-normalization and currency-conversion core of
`app.py` (FX timeseries downloader).

Shallow embedding conventions:
* Python dicts are insertion-ordered association lists `List (String × α)`
  with unique keys (JSON objects); `Dict.insert` models `d[k] = v`
  (update in place if the key exists, append otherwise) and
  `Dict.setdefault` models `d.setdefault(k, v)`.
* Numeric values are exact rationals `ℚ`; the code works with Python floats
  and performs no rounding, so all algebraic identities are stated over `ℚ`.
  Division by zero is excluded by hypotheses mirroring the DayQuote invariant
  (all rates positive), since Python would raise `ZeroDivisionError` there.
* A raw JSON value reaching the converters is a `PyVal`: a numeric value
  (anything `float(...)` accepts, including numeric strings, identified with
  its value), a non-coercible scalar (`float(...)` raises), or a nested
  object.  Functions that can raise a Python exception return
  `Option`/`none` for the raising outcome.
-/

/-- Python dict as an insertion-ordered association list. -/
abbrev Dict (α : Type) := List (String × α)

namespace Dict

/-- Lookup `d[k]`: first entry whose key is `k` (keys are unique in dicts
built by the code, so first-match is the dict's value). -/
def find? : Dict α → String → Option α
  | [], _ => none
  | (k', v) :: rest, k => if k' = k then some v else find? rest k

/-- Membership test `k in d`. -/
def contains : Dict α → String → Bool
  | [], _ => false
  | (k', _) :: rest, k => if k' = k then true else contains rest k

/-- Python `d[k] = v`: update the value in place if `k` is a key, else append. -/
def insert (d : Dict α) (k : String) (v : α) : Dict α :=
  if contains d k then
    d.map (fun p => if p.1 = k then (k, v) else p)
  else
    d ++ [(k, v)]

/-- Python `d.setdefault(k, v)`. -/
def setdefault (d : Dict α) (k : String) (v : α) : Dict α :=
  if contains d k then d else d ++ [(k, v)]

/-- The key list of a dict, in insertion order. -/
def keys (d : Dict α) : List String := d.map (·.1)

/-- Value-wise dict comprehension with keys untouched. -/
def mapVal (g : α → β) (d : Dict α) : Dict β :=
  d.map (fun p => (p.1, g p.2))

@[simp] theorem find?_nil (k : String) : find? ([] : Dict α) k = none := rfl

@[simp] theorem find?_cons (k' k : String) (v : α) (d : Dict α) :
    find? ((k', v) :: d) k = if k' = k then some v else find? d k := rfl

@[simp] theorem contains_nil (k : String) : contains ([] : Dict α) k = false := rfl

@[simp] theorem contains_cons (k' k : String) (v : α) (d : Dict α) :
    contains ((k', v) :: d) k = if k' = k then true else contains d k := rfl

@[simp] theorem keys_nil : keys ([] : Dict α) = [] := rfl

@[simp] theorem keys_cons (k : String) (v : α) (d : Dict α) :
    keys ((k, v) :: d) = k :: keys d := rfl

@[simp] theorem mapVal_nil (g : α → β) : mapVal g ([] : Dict α) = [] := rfl

@[simp] theorem mapVal_cons (g : α → β) (k : String) (v : α) (d : Dict α) :
    mapVal g ((k, v) :: d) = (k, g v) :: mapVal g d := rfl

theorem contains_iff_find? (d : Dict α) (k : String) :
    contains d k = true ↔ ∃ v, find? d k = some v := by
  induction d with
  | nil => simp
  | cons p rest ih =>
    obtain ⟨k', v⟩ := p
    by_cases h : k' = k
    · simp [h]
    · simp [h, ih]

theorem find?_eq_none_of_not_contains {d : Dict α} {k : String}
    (h : contains d k = false) : find? d k = none := by
  cases hf : find? d k with
  | none => rfl
  | some v =>
    have := (contains_iff_find? d k).mpr ⟨v, hf⟩
    rw [h] at this
    cases this

theorem contains_iff_mem_keys (d : Dict α) (k : String) :
    contains d k = true ↔ k ∈ keys d := by
  induction d with
  | nil => simp
  | cons p rest ih =>
    obtain ⟨k', v⟩ := p
    by_cases h : k' = k
    · subst h
      simp
    · simp only [contains_cons, if_neg h, keys_cons, List.mem_cons, ih]
      constructor
      · exact Or.inr
      · rintro (hx | hx)
        · exact absurd hx.symm h
        · exact hx

@[simp] theorem find?_mapVal (g : α → β) (d : Dict α) (k : String) :
    find? (mapVal g d) k = Option.map g (find? d k) := by
  induction d with
  | nil => rfl
  | cons p rest ih =>
    obtain ⟨k', v⟩ := p
    by_cases h : k' = k <;> simp [h, ih]

@[simp] theorem keys_mapVal (g : α → β) (d : Dict α) :
    keys (mapVal g d) = keys d := by
  induction d with
  | nil => rfl
  | cons p rest ih =>
    obtain ⟨k', v⟩ := p
    simp [ih]

@[simp] theorem contains_mapVal (g : α → β) (d : Dict α) (k : String) :
    contains (mapVal g d) k = contains d k := by
  induction d with
  | nil => rfl
  | cons p rest ih =>
    obtain ⟨k', v⟩ := p
    by_cases h : k' = k <;> simp [h, ih]

theorem find?_append (d₁ d₂ : Dict α) (k : String) :
    find? (d₁ ++ d₂) k = Option.or (find? d₁ k) (find? d₂ k) := by
  induction d₁ with
  | nil => simp
  | cons p rest ih =>
    obtain ⟨k', v⟩ := p
    by_cases h : k' = k <;> simp [h, ih]

theorem find?_mapRepl_self (d : Dict α) (k : String) (v : α)
    (h : contains d k = true) :
    find? (d.map (fun p => if p.1 = k then (k, v) else p)) k = some v := by
  induction d with
  | nil => simp at h
  | cons p rest ih =>
    obtain ⟨k', w⟩ := p
    by_cases hk : k' = k
    · simp [hk]
    · simp only [contains_cons, if_neg hk] at h
      simp [hk, ih h]

theorem find?_mapRepl_ne (d : Dict α) (k k' : String) (v : α) (hne : k ≠ k') :
    find? (d.map (fun p => if p.1 = k then (k, v) else p)) k' = find? d k' := by
  induction d with
  | nil => rfl
  | cons p rest ih =>
    obtain ⟨k'', w⟩ := p
    by_cases hk : k'' = k
    · subst hk
      simp [hne, fun h : k'' = k' => hne h, ih]
    · simp only [List.map_cons, if_neg hk]
      by_cases hk' : k'' = k' <;> simp [hk', ih]

theorem keys_mapRepl (d : Dict α) (k : String) (v : α) :
    keys (d.map (fun p => if p.1 = k then (k, v) else p)) = keys d := by
  induction d with
  | nil => rfl
  | cons p rest ih =>
    obtain ⟨k', w⟩ := p
    by_cases hk : k' = k
    · subst hk
      simp [ih]
    · simp [hk, ih]

theorem find?_insert_self (d : Dict α) (k : String) (v : α) :
    find? (insert d k v) k = some v := by
  unfold insert
  by_cases h : contains d k = true
  · simp only [h, if_true]
    exact find?_mapRepl_self d k v h
  · rw [if_neg h, find?_append,
      find?_eq_none_of_not_contains (Bool.not_eq_true _ ▸ h)]
    simp

theorem find?_insert_ne (d : Dict α) (k k' : String) (v : α) (hne : k ≠ k') :
    find? (insert d k v) k' = find? d k' := by
  unfold insert
  by_cases h : contains d k = true
  · simp only [h, if_true]
    exact find?_mapRepl_ne d k k' v hne
  · rw [if_neg h, find?_append]
    simp [find?, fun h' : k = k' => hne h']

theorem keys_insert (d : Dict α) (k : String) (v : α) :
    keys (insert d k v) = if contains d k then keys d else keys d ++ [k] := by
  unfold insert
  by_cases h : contains d k = true
  · simp [h, keys_mapRepl]
  · simp only [h, Bool.false_eq_true, if_false]
    simp [keys]

theorem setdefault_of_contains (d : Dict α) (k : String) (v : α)
    (h : contains d k = true) : setdefault d k v = d := by
  simp [setdefault, h]

theorem find?_setdefault_self_of_not_contains (d : Dict α) (k : String) (v : α)
    (h : contains d k = false) : find? (setdefault d k v) k = some v := by
  simp only [setdefault, h, Bool.false_eq_true, if_false]
  rw [find?_append, find?_eq_none_of_not_contains h]
  simp

theorem find?_setdefault_ne (d : Dict α) (k k' : String) (v : α) (hne : k ≠ k') :
    find? (setdefault d k v) k' = find? d k' := by
  unfold setdefault
  by_cases h : contains d k = true
  · simp [h]
  · rw [if_neg h, find?_append]
    simp [find?, fun h' : k = k' => hne h']

theorem keys_setdefault (d : Dict α) (k : String) (v : α) :
    keys (setdefault d k v) = if contains d k then keys d else keys d ++ [k] := by
  unfold setdefault
  by_cases h : contains d k = true
  · simp [h]
  · simp only [h, Bool.false_eq_true, if_false]
    simp [keys]

end Dict

/-- A JSON scalar or object as the Python code sees it after `resp.json()`.
`num q` is any value coerced by `float(...)` to `q` (floats, ints, numeric
strings, identified with their numeric value); `nonNumScalar s` is a scalar
on which `float(...)` raises; `dict` is a nested JSON object. -/
inductive PyVal where
  | num (q : ℚ)
  | nonNumScalar (s : String)
  | dict (entries : List (String × PyVal))

/-- Python `float(v)`: `none` models a raised `ValueError`/`TypeError`. -/
def pyFloat : PyVal → Option ℚ
  | .num q => some q
  | .nonNumScalar _ => none
  | .dict _ => none

/-- Whether an entry's value is numerically coercible. -/
def numericEntry : String × PyVal → Bool
  | (_, .num _) => true
  | (_, _) => false

/-- Python `s[-3:]` for `n = 3`: the last `n` characters, or all of `s`
when it is shorter than `n`. -/
def lastChars (s : String) (n : Nat) : String :=
  String.mk (s.data.drop (s.data.length - n))

/-- The dict-building loop shared by both converters: left to right over the
block's items, applying `f` to each key and `float` to each value; `none`
models the uncaught exception when some value fails coercion. -/
def parseBlockAux (f : String → String) : List (String × PyVal) → Dict ℚ → Option (Dict ℚ)
  | [], acc => some acc
  | (k, v) :: rest, acc =>
    match pyFloat v with
    | none => none
    | some q => parseBlockAux f rest (Dict.insert acc (f k) q)

/-- app.py lines 91 to 95: the loop
`usd_to = ... ; for pair, val in day_block.items(): usd_to[pair[-3:]] = float(val)`. -/
def parseQuotesBlock (day_block : List (String × PyVal)) : Option (Dict ℚ) :=
  parseBlockAux (fun k => lastChars k 3) day_block []

/-- app.py line 113: the comprehension over `day_block.items()` applying
`float` to each value and keeping keys unchanged. -/
def parseRatesBlock (day_block : List (String × PyVal)) : Option (Dict ℚ) :=
  parseBlockAux (fun k => k) day_block []

/-- app.py lines 101 to 104: the BaseRow built from a parsed quotes-style
dict `usd_to` whose value at `base` is `vb`: the division comprehension,
then `base_row[base] = 1.0`, then the unconditional `base_row["USD"] = 1.0 / usd_to[base]`. -/
def quotesBaseRow (usd_to : Dict ℚ) (vb : ℚ) (base : String) : Dict ℚ :=
  Dict.insert (Dict.insert (Dict.mapVal (· / vb) usd_to) base 1) "USD" (1 / vb)

/-- app.py lines 116 to 119: the BaseRow built from a parsed rates-style
dict `r` whose value at `base` is `vb`; note `setdefault` for the "USD"
entry here, in contrast to the unconditional assignment in `quotesBaseRow`. -/
def ratesBaseRow (r : Dict ℚ) (vb : ℚ) (base : String) : Dict ℚ :=
  Dict.setdefault (Dict.insert (Dict.mapVal (· / vb) r) base 1) "USD" (1 / vb)

/-- `_convert_quotes_block_to_base` (app.py lines 84 to 105).  `none` is an
uncaught exception escaping the call; `some []` is the `return {}` for a
day whose parsed block lacks the base currency. -/
def convertQuotesBlockToBase (day_block : List (String × PyVal)) (base : String) :
    Option (Dict ℚ) :=
  match parseQuotesBlock day_block with
  | none => none
  | some usd_to =>
    match Dict.find? usd_to base with
    | none => some []
    | some vb => some (quotesBaseRow usd_to vb base)

/-- `_convert_rates_block_to_base` (app.py lines 107 to 120). -/
def convertRatesBlockToBase (day_block : List (String × PyVal)) (base : String) :
    Option (Dict ℚ) :=
  match parseRatesBlock day_block with
  | none => none
  | some r =>
    match Dict.find? r base with
    | none => some []
    | some vb => some (ratesBaseRow r vb base)

/-- Lexicographic comparison of character lists by code point, as Python
compares strings in `sorted(...)` and `sort_values`. -/
def charListLe : List Char → List Char → Bool
  | [], _ => true
  | _ :: _, [] => false
  | a :: as, b :: bs => if a < b then true else if b < a then false else charListLe as bs

theorem charListLe_total : ∀ a b : List Char, charListLe a b = true ∨ charListLe b a = true
  | [], _ => Or.inl rfl
  | _ :: _, [] => Or.inr rfl
  | a :: as, b :: bs => by
    rcases lt_trichotomy a b with h | h | h
    · left
      simp [charListLe, h]
    · subst h
      have := charListLe_total as bs
      rcases this with h' | h' <;> [left; right] <;> simp [charListLe, lt_irrefl, h']
    · right
      simp [charListLe, h]

theorem charListLe_trans :
    ∀ a b c : List Char, charListLe a b = true → charListLe b c = true →
      charListLe a c = true
  | [], _, _, _, _ => rfl
  | _ :: _, [], _, hab, _ => by simp [charListLe] at hab
  | _ :: _, _ :: _, [], _, hbc => by simp [charListLe] at hbc
  | a :: as, b :: bs, c :: cs, hab, hbc => by
    rcases lt_trichotomy a b with h1 | h1 | h1
    · rcases lt_trichotomy b c with h2 | h2 | h2
      · simp [charListLe, lt_trans h1 h2]
      · subst h2
        simp [charListLe, h1]
      · exfalso
        simp [charListLe, asymm h2, h2] at hbc
    · subst h1
      rcases lt_trichotomy a c with h2 | h2 | h2
      · simp [charListLe, h2]
      · subst h2
        simp only [charListLe, lt_irrefl, if_false] at hab hbc ⊢
        exact charListLe_trans as bs cs hab hbc
      · exfalso
        simp [charListLe, asymm h2, h2] at hbc
    · exfalso
      simp [charListLe, asymm h1, h1] at hab

theorem charListLe_antisymm :
    ∀ a b : List Char, charListLe a b = true → charListLe b a = true → a = b
  | [], [], _, _ => rfl
  | [], _ :: _, _, hba => by simp [charListLe] at hba
  | _ :: _, [], hab, _ => by simp [charListLe] at hab
  | a :: as, b :: bs, hab, hba => by
    rcases lt_trichotomy a b with h1 | h1 | h1
    · exfalso
      simp [charListLe, asymm h1, h1] at hba
    · subst h1
      simp only [charListLe, lt_irrefl, if_false] at hab hba
      rw [charListLe_antisymm as bs hab hba]
    · exfalso
      simp [charListLe, asymm h1, h1] at hab

/-- String order used by Python `sorted` and by date sorting: lexicographic
by code point. -/
def strLe (a b : String) : Prop := charListLe a.data b.data = true

/-- Strict version of `strLe`: strictly ascending, in particular distinct. -/
def strLt (a b : String) : Prop := strLe a b ∧ a ≠ b

instance : DecidableRel strLe := fun a b =>
  inferInstanceAs (Decidable (charListLe a.data b.data = true))

instance : IsTotal String strLe := ⟨fun a b => charListLe_total a.data b.data⟩

instance : IsTrans String strLe := ⟨fun a b c => charListLe_trans a.data b.data c.data⟩

theorem strLe_antisymm {a b : String} (hab : strLe a b) (hba : strLe b a) : a = b := by
  cases a with
  | mk da =>
    cases b with
    | mk db =>
      rw [charListLe_antisymm da db hab hba]

/-- Row comparison used by `sort_values("date")`: by the date key. -/
def rowLe (x y : String × Dict ℚ) : Prop := strLe x.1 y.1

instance : DecidableRel rowLe := fun x y => inferInstanceAs (Decidable (strLe x.1 y.1))

instance : IsTotal (String × Dict ℚ) rowLe := ⟨fun x y => IsTotal.total x.1 y.1⟩

instance : IsTrans (String × Dict ℚ) rowLe :=
  ⟨fun _ _ _ hxy hyz => Trans.trans (r := strLe) hxy hyz⟩

/-- The decoded top-level payload, restricted to the two keys the core code
reads: `quotes` and `rates`.  `none` means the key is absent; `some []`
means the key is present and maps to an empty object. -/
structure Payload where
  quotes : Option (List (String × PyVal))
  rates : Option (List (String × PyVal))

/-- app.py line 129: `container = data.get("quotes") or data.get("rates") or {}`
with Python truthiness: an absent or empty `quotes` value falls through to
`rates`, and an absent or empty `rates` value falls through to `{}`. -/
def container (p : Payload) : List (String × PyVal) :=
  match p.quotes with
  | some q =>
    if q.isEmpty then
      match p.rates with
      | some r => r
      | none => []
    else q
  | none =>
    match p.rates with
    | some r => r
    | none => []

/-- app.py lines 133 to 135: `if not isinstance(block, dict): block =
block.get("quotes") or block.get("rates") or {}`.  A dict block — even a
nested wrapper like a repeated rates/quotes object — skips the branch and is
used as-is; a scalar block enters the branch, where `.get` raises
`AttributeError` (scalars have no such method), modelled as `none`. -/
def unwrapOrRaise : PyVal → Option (List (String × PyVal))
  | .dict d => some d
  | _ => none

/-- app.py lines 137 to 140: schema dispatch on mere presence of the
`quotes` key (`data.get("quotes") is not None`). -/
def convertBlock (useQuotes : Bool) (block : List (String × PyVal)) (base : String) :
    Option (Dict ℚ) :=
  if useQuotes then convertQuotesBlockToBase block base
  else convertRatesBlockToBase block base

/-- app.py lines 132 to 147: the row-building loop.  A day whose conversion
returns the empty dict is skipped (`if not converted: continue`); an
exception anywhere (`none`) aborts the whole call.  Each kept row is the
converted dict, with its date kept alongside (the code stores it under a
`"date"` key that `set_index` later removes; currency codes never equal
`"date"`, so keeping the date separately is equivalent). -/
def buildRows (useQuotes : Bool) (base : String) :
    List (String × PyVal) → Option (List (String × Dict ℚ))
  | [] => some []
  | (date, blockVal) :: rest =>
    match unwrapOrRaise blockVal with
    | none => none
    | some block =>
      match convertBlock useQuotes block base with
      | none => none
      | some [] => buildRows useQuotes base rest
      | some row => Option.map (fun rs => (date, row) :: rs) (buildRows useQuotes base rest)

/-- The column set of `pd.DataFrame(rows)` (after dropping the date index):
the union of the row dicts' keys. -/
def colUnion (rows : List (String × Dict ℚ)) : List String :=
  ((rows.map (fun r => Dict.keys r.2)).flatten).dedup

/-- The assembled Series: date-keyed rows in index order plus the ordered
column list.  A cell is `Dict.find?` of the row at the column (absent key =
missing cell / NaN). -/
structure DataFrame where
  rows : List (String × Dict ℚ)
  cols : List String
deriving DecidableEq

/-- `timeframe_to_dataframe` (app.py lines 122 to 154).  `none` models an
uncaught exception; the empty DataFrame is returned when no rows survive;
otherwise rows are sorted by date and columns are the base first, then the
remaining observed columns sorted. -/
def timeframe_to_dataframe (p : Payload) (base : String) : Option DataFrame :=
  match buildRows p.quotes.isSome base (container p) with
  | none => none
  | some rows =>
    if rows.isEmpty then some ⟨[], []⟩
    else
      some ⟨List.insertionSort rowLe rows,
            base :: List.insertionSort strLe
              (List.filter (fun c => decide (c ≠ base)) (colUnion rows))⟩

/-- app.py lines 76 to 77, inside `fetch_timeframe`: raise when the decoded
payload has neither a `rates` nor a `quotes` key. -/
def fetchSchemaCheck (p : Payload) : Except String Payload :=
  if p.rates.isSome || p.quotes.isSome then Except.ok p
  else Except.error "Unexpected API response: missing rates/quotes."

/-- A day block that is a flat JSON object of numeric values: the
well-formed shape the upstream provider sends. -/
def wfBlockB : PyVal → Bool
  | .dict b => b.all numericEntry
  | _ => false

/-- The currency code the Quote Parser derives from a raw key under each
schema: last three characters for pair-code keys, the key itself for
bare-code keys. -/
def sliceKey (useQuotes : Bool) (k : String) : String :=
  if useQuotes then lastChars k 3 else k

theorem Dict.insert_ne_nil (d : Dict ℚ) (k : String) (v : ℚ) :
    Dict.insert d k v ≠ [] := by
  unfold Dict.insert
  by_cases h : Dict.contains d k = true
  · simp only [h, if_true]
    cases d with
    | nil => simp at h
    | cons p rest => simp
  · simp only [h]
    rw [if_neg (by simp [h])]
    simp

theorem quotesBaseRow_ne_nil (usd_to : Dict ℚ) (vb : ℚ) (base : String) :
    quotesBaseRow usd_to vb base ≠ [] :=
  Dict.insert_ne_nil _ _ _

theorem ratesBaseRow_ne_nil (r : Dict ℚ) (vb : ℚ) (base : String) :
    ratesBaseRow r vb base ≠ [] := by
  unfold ratesBaseRow Dict.setdefault
  by_cases h : Dict.contains (Dict.insert (Dict.mapVal (· / vb) r) base 1) "USD" = true
  · simp only [h, if_true]
    exact Dict.insert_ne_nil _ _ _
  · rw [if_neg h]
    simp

theorem Dict.contains_insert (d : Dict α) (k : String) (v : α) (c : String) :
    Dict.contains (Dict.insert d k v) c = true ↔
      Dict.contains d c = true ∨ k = c := by
  rw [Dict.contains_iff_mem_keys, Dict.keys_insert]
  by_cases h : Dict.contains d k = true
  · simp only [h, if_true]
    rw [← Dict.contains_iff_mem_keys]
    constructor
    · exact Or.inl
    · rintro (hc | hc)
      · exact hc
      · subst hc
        exact h
  · simp only [h, Bool.false_eq_true, if_false, List.mem_append,
      List.mem_singleton]
    rw [← Dict.contains_iff_mem_keys]
    constructor
    · rintro (hc | hc)
      · exact Or.inl hc
      · exact Or.inr hc.symm
    · rintro (hc | hc)
      · exact Or.inl hc
      · exact Or.inr hc.symm

theorem parseBlockAux_eq_none_of_bad (f : String → String) :
    ∀ (b : List (String × PyVal)) (acc : Dict ℚ),
      (∃ e ∈ b, pyFloat e.2 = none) → parseBlockAux f b acc = none := by
  intro b
  induction b with
  | nil =>
    rintro acc ⟨e, he, _⟩
    simp at he
  | cons p rest ih =>
    rintro acc ⟨e, he, hbad⟩
    obtain ⟨k, v⟩ := p
    rcases List.mem_cons.mp he with he | he
    · subst he
      simp only [parseBlockAux, hbad]
    · cases hv : pyFloat v with
      | none => simp only [parseBlockAux, hv]
      | some q =>
        simp only [parseBlockAux, hv]
        exact ih _ ⟨e, he, hbad⟩

theorem parseBlockAux_isSome (f : String → String) :
    ∀ (b : List (String × PyVal)) (acc : Dict ℚ),
      (∀ e ∈ b, numericEntry e = true) →
      ∃ q, parseBlockAux f b acc = some q := by
  intro b
  induction b with
  | nil => exact fun acc _ => ⟨acc, rfl⟩
  | cons p rest ih =>
    intro acc h
    obtain ⟨k, v⟩ := p
    have hk : numericEntry (k, v) = true := h _ (List.mem_cons_self _ _)
    cases v with
    | num q =>
      simp only [parseBlockAux, pyFloat]
      exact ih _ fun e he => h e (List.mem_cons_of_mem _ he)
    | nonNumScalar s => simp [numericEntry] at hk
    | dict entries => simp [numericEntry] at hk

theorem parseBlockAux_contains (f : String → String) :
    ∀ (b : List (String × PyVal)) (acc q : Dict ℚ),
      parseBlockAux f b acc = some q → ∀ c,
      (Dict.contains q c = true ↔
        Dict.contains acc c = true ∨ ∃ e ∈ b, f e.1 = c) := by
  intro b
  induction b with
  | nil =>
    intro acc q h c
    simp only [parseBlockAux, Option.some.injEq] at h
    subst h
    simp
  | cons p rest ih =>
    intro acc q h c
    obtain ⟨k, v⟩ := p
    cases hv : pyFloat v with
    | none =>
      simp only [parseBlockAux, hv] at h
      exact Option.noConfusion h
    | some qv =>
      simp only [parseBlockAux, hv] at h
      rw [ih _ _ h c, Dict.contains_insert]
      constructor
      · rintro ((hc | hc) | hc)
        · exact Or.inl hc
        · exact Or.inr ⟨(k, v), List.mem_cons_self _ _, hc⟩
        · obtain ⟨e, he, hfe⟩ := hc
          exact Or.inr ⟨e, List.mem_cons_of_mem _ he, hfe⟩
      · rintro (hc | ⟨e, he, hfe⟩)
        · exact Or.inl (Or.inl hc)
        · rcases List.mem_cons.mp he with he | he
          · subst he
            exact Or.inl (Or.inr hfe)
          · exact Or.inr ⟨e, he, hfe⟩

theorem convertBlock_eq_skip (useQ : Bool) (b : List (String × PyVal)) (base : String)
    (hnum : ∀ e ∈ b, numericEntry e = true)
    (habs : ∀ e ∈ b, sliceKey useQ e.1 ≠ base) :
    convertBlock useQ b base = some [] := by
  cases useQ with
  | true =>
    obtain ⟨q, hq⟩ := parseBlockAux_isSome (fun k => lastChars k 3) b [] hnum
    have hc : Dict.contains q base = false := by
      rw [Bool.eq_false_iff]
      intro hcon
      rcases (parseBlockAux_contains _ b [] q hq base).mp hcon with h | ⟨e, he, hfe⟩
      · simp at h
      · exact habs e he (by simpa [sliceKey] using hfe)
    simp only [convertBlock, if_true, convertQuotesBlockToBase, parseQuotesBlock, hq,
      Dict.find?_eq_none_of_not_contains hc]
  | false =>
    obtain ⟨q, hq⟩ := parseBlockAux_isSome (fun k => k) b [] hnum
    have hc : Dict.contains q base = false := by
      rw [Bool.eq_false_iff]
      intro hcon
      rcases (parseBlockAux_contains _ b [] q hq base).mp hcon with h | ⟨e, he, hfe⟩
      · simp at h
      · exact habs e he (by simpa [sliceKey] using hfe)
    simp only [convertBlock, Bool.false_eq_true, if_false, convertRatesBlockToBase,
      parseRatesBlock, hq, Dict.find?_eq_none_of_not_contains hc]

theorem convertBlock_eq_row (useQ : Bool) (b : List (String × PyVal)) (base : String)
    (hnum : ∀ e ∈ b, numericEntry e = true)
    (hpres : ∃ e ∈ b, sliceKey useQ e.1 = base) :
    ∃ row, convertBlock useQ b base = some row ∧ row ≠ [] := by
  cases useQ with
  | true =>
    obtain ⟨q, hq⟩ := parseBlockAux_isSome (fun k => lastChars k 3) b [] hnum
    have hc : Dict.contains q base = true := by
      rw [parseBlockAux_contains _ b [] q hq base]
      obtain ⟨e, he, hfe⟩ := hpres
      exact Or.inr ⟨e, he, by simpa [sliceKey] using hfe⟩
    obtain ⟨vb, hvb⟩ := (Dict.contains_iff_find? q base).mp hc
    refine ⟨quotesBaseRow q vb base, ?_, quotesBaseRow_ne_nil q vb base⟩
    simp only [convertBlock, if_true, convertQuotesBlockToBase, parseQuotesBlock, hq, hvb]
  | false =>
    obtain ⟨q, hq⟩ := parseBlockAux_isSome (fun k => k) b [] hnum
    have hc : Dict.contains q base = true := by
      rw [parseBlockAux_contains _ b [] q hq base]
      obtain ⟨e, he, hfe⟩ := hpres
      exact Or.inr ⟨e, he, by simpa [sliceKey] using hfe⟩
    obtain ⟨vb, hvb⟩ := (Dict.contains_iff_find? q base).mp hc
    refine ⟨ratesBaseRow q vb base, ?_, ratesBaseRow_ne_nil q vb base⟩
    simp only [convertBlock, Bool.false_eq_true, if_false, convertRatesBlockToBase,
      parseRatesBlock, hq, hvb]

theorem snd_eq_of_nodup_keys {α : Type} :
    ∀ (l : List (String × α)) (d : String) (v v' : α),
      List.Nodup (l.map Prod.fst) → (d, v) ∈ l → (d, v') ∈ l → v = v' := by
  intro l
  induction l with
  | nil =>
    intro d v v' _ hv
    simp at hv
  | cons p rest ih =>
    intro d v v' hnd hv hv'
    obtain ⟨k, w⟩ := p
    simp only [List.map_cons, List.nodup_cons] at hnd
    rcases List.mem_cons.mp hv with hv | hv <;>
      rcases List.mem_cons.mp hv' with hv' | hv'
    · rw [(Prod.mk.inj hv).2, (Prod.mk.inj hv').2]
    · exfalso
      have hd := (Prod.mk.inj hv).1
      exact hnd.1 (hd ▸ List.mem_map_of_mem Prod.fst hv')
    · exfalso
      have hd := (Prod.mk.inj hv').1
      exact hnd.1 (hd ▸ List.mem_map_of_mem Prod.fst hv)
    · exact ih d v v' hnd.2 hv hv'

theorem convertBlock_isSome (useQ : Bool) (b : List (String × PyVal)) (base : String)
    (hnum : ∀ e ∈ b, numericEntry e = true) :
    ∃ r, convertBlock useQ b base = some r := by
  cases useQ with
  | true =>
    obtain ⟨q, hq⟩ := parseBlockAux_isSome (fun k => lastChars k 3) b [] hnum
    cases hf : Dict.find? q base with
    | none =>
      exact ⟨[], by simp only [convertBlock, if_true, convertQuotesBlockToBase,
        parseQuotesBlock, hq, hf]⟩
    | some vb =>
      exact ⟨quotesBaseRow q vb base, by simp only [convertBlock, if_true,
        convertQuotesBlockToBase, parseQuotesBlock, hq, hf]⟩
  | false =>
    obtain ⟨q, hq⟩ := parseBlockAux_isSome (fun k => k) b [] hnum
    cases hf : Dict.find? q base with
    | none =>
      exact ⟨[], by simp only [convertBlock, Bool.false_eq_true, if_false,
        convertRatesBlockToBase, parseRatesBlock, hq, hf]⟩
    | some vb =>
      exact ⟨ratesBaseRow q vb base, by simp only [convertBlock, Bool.false_eq_true,
        if_false, convertRatesBlockToBase, parseRatesBlock, hq, hf]⟩

theorem wfBlockB_elim {v : PyVal} (h : wfBlockB v = true) :
    ∃ b, v = PyVal.dict b ∧ ∀ e ∈ b, numericEntry e = true := by
  cases v with
  | num q => simp [wfBlockB] at h
  | nonNumScalar s => simp [wfBlockB] at h
  | dict b =>
    refine ⟨b, rfl, ?_⟩
    simpa [wfBlockB, List.all_eq_true] using h

theorem buildRows_some_of_wf (useQ : Bool) (base : String) :
    ∀ l : List (String × PyVal), (∀ p ∈ l, wfBlockB p.2 = true) →
      ∃ rows, buildRows useQ base l = some rows := by
  intro l
  induction l with
  | nil => exact fun _ => ⟨[], rfl⟩
  | cons p rest ih =>
    intro h
    obtain ⟨d, v⟩ := p
    obtain ⟨b, hb, hnum⟩ := wfBlockB_elim (h _ (List.mem_cons_self _ _))
    subst hb
    obtain ⟨r, hr⟩ := convertBlock_isSome useQ b base hnum
    obtain ⟨rows, hrows⟩ := ih fun p hp => h p (List.mem_cons_of_mem _ hp)
    cases r with
    | nil =>
      exact ⟨rows, by simp only [buildRows, unwrapOrRaise, hr, hrows]⟩
    | cons r0 rs =>
      exact ⟨(d, r0 :: rs) :: rows, by simp only [buildRows, unwrapOrRaise, hr, hrows,
        Option.map_some']⟩

theorem buildRows_dates_sublist (useQ : Bool) (base : String) :
    ∀ (l : List (String × PyVal)) (rows : List (String × Dict ℚ)),
      buildRows useQ base l = some rows →
      List.Sublist (rows.map Prod.fst) (l.map Prod.fst) := by
  intro l
  induction l with
  | nil =>
    intro rows h
    simp only [buildRows, Option.some.injEq] at h
    subst h
    simp
  | cons p rest ih =>
    intro rows h
    obtain ⟨d, v⟩ := p
    cases hu : unwrapOrRaise v with
    | none =>
      simp only [buildRows, hu] at h
      exact Option.noConfusion h
    | some blk =>
      simp only [buildRows, hu] at h
      cases hc : convertBlock useQ blk base with
      | none =>
        rw [hc] at h
        exact Option.noConfusion h
      | some r =>
        rw [hc] at h
        cases r with
        | nil =>
          exact (ih rows h).cons d
        | cons r0 rs =>
          cases hrows : buildRows useQ base rest with
          | none =>
            rw [hrows] at h
            exact Option.noConfusion h
          | some rows' =>
            rw [hrows] at h
            simp only [Option.map_some'] at h
            obtain rfl : (d, r0 :: rs) :: rows' = rows := Option.some.inj h
            simpa using (ih rows' hrows).cons₂ d

theorem buildRows_absent (useQ : Bool) (base d : String) :
    ∀ (l : List (String × PyVal)) (rows : List (String × Dict ℚ)),
      buildRows useQ base l = some rows →
      (∀ v, (d, v) ∈ l →
        ∃ blk, unwrapOrRaise v = some blk ∧ convertBlock useQ blk base = some []) →
      d ∉ rows.map Prod.fst := by
  intro l
  induction l with
  | nil =>
    intro rows h _
    simp only [buildRows, Option.some.injEq] at h
    subst h
    simp
  | cons p rest ih =>
    intro rows h hskip
    obtain ⟨d', v⟩ := p
    cases hu : unwrapOrRaise v with
    | none =>
      simp only [buildRows, hu] at h
      exact Option.noConfusion h
    | some blk =>
      simp only [buildRows, hu] at h
      cases hc : convertBlock useQ blk base with
      | none =>
        rw [hc] at h
        exact Option.noConfusion h
      | some r =>
        rw [hc] at h
        cases r with
        | nil =>
          exact ih rows h fun w hw => hskip w (List.mem_cons_of_mem _ hw)
        | cons r0 rs =>
          cases hrows : buildRows useQ base rest with
          | none =>
            rw [hrows] at h
            exact Option.noConfusion h
          | some rows' =>
            rw [hrows] at h
            simp only [Option.map_some'] at h
            obtain rfl : (d', r0 :: rs) :: rows' = rows := Option.some.inj h
            intro hmem
            simp only [List.map_cons, List.mem_cons] at hmem
            rcases hmem with hd | hd
            · subst hd
              obtain ⟨blk', hu', hc'⟩ := hskip v (List.mem_cons_self _ _)
              rw [hu] at hu'
              obtain rfl : blk = blk' := Option.some.inj hu'
              rw [hc] at hc'
              exact List.noConfusion (Option.some.inj hc')
            · exact ih rows' hrows
                (fun w hw => hskip w (List.mem_cons_of_mem _ hw)) hd

theorem buildRows_present (useQ : Bool) (base : String) :
    ∀ (l : List (String × PyVal)) (rows : List (String × Dict ℚ))
      (d : String) (v : PyVal) (blk : List (String × PyVal)) (row : Dict ℚ),
      buildRows useQ base l = some rows →
      (d, v) ∈ l → unwrapOrRaise v = some blk →
      convertBlock useQ blk base = some row → row ≠ [] →
      d ∈ rows.map Prod.fst := by
  intro l
  induction l with
  | nil =>
    intro rows d v blk row _ hmem
    simp at hmem
  | cons p rest ih =>
    intro rows d v blk row h hmem hu hc hne
    obtain ⟨d', v'⟩ := p
    rcases List.mem_cons.mp hmem with hh | hh
    · obtain ⟨hd, hv⟩ := (Prod.mk.injEq _ _ _ _).mp hh
      subst hd
      subst hv
      simp only [buildRows, hu] at h
      rw [hc] at h
      cases row with
      | nil => exact absurd rfl hne
      | cons r0 rs =>
        cases hrows : buildRows useQ base rest with
        | none =>
          rw [hrows] at h
          exact Option.noConfusion h
        | some rows' =>
          rw [hrows] at h
          simp only [Option.map_some'] at h
          obtain rfl : (d, r0 :: rs) :: rows' = rows := Option.some.inj h
          simp
    · cases hu' : unwrapOrRaise v' with
      | none =>
        simp only [buildRows, hu'] at h
        exact Option.noConfusion h
      | some blk' =>
        simp only [buildRows, hu'] at h
        cases hc' : convertBlock useQ blk' base with
        | none =>
          rw [hc'] at h
          exact Option.noConfusion h
        | some r' =>
          rw [hc'] at h
          cases r' with
          | nil => exact ih rows d v blk row h hh hu hc hne
          | cons r0 rs =>
            cases hrows : buildRows useQ base rest with
            | none =>
              rw [hrows] at h
              exact Option.noConfusion h
            | some rows' =>
              rw [hrows] at h
              simp only [Option.map_some'] at h
              obtain rfl : (d', r0 :: rs) :: rows' = rows := Option.some.inj h
              simp only [List.map_cons, List.mem_cons]
              exact Or.inr (ih rows' d v blk row hrows hh hu hc hne)

/-- C1: the claim as stated is falsified by the quotes converter at a
one-day record whose parsed DayQuote maps "USD" to 3 with base "GBP": the
row value at "USD" is 1.0 / q[base] = 2, not q["USD"] / q[base] = 6, so
the only deviation from plain division is not the base entry alone. -/
theorem c1_counterexample :
    convertQuotesBlockToBase [("USDUSD", PyVal.num 3), ("USDGBP", PyVal.num (1/2))] "GBP"
      = some [("USD", 2), ("GBP", 1)] ∧ ((3 : ℚ) / (1/2) ≠ 2) := by
  constructor
  · simp +decide only [convertQuotesBlockToBase, parseQuotesBlock, parseBlockAux,
      pyFloat, Dict.insert, Dict.contains, Dict.find?, Dict.mapVal, quotesBaseRow,
      lastChars, List.map, if_true, if_false]
    norm_num
  · norm_num

/-- C1 (amended): for every parsed DayQuote `q` containing the base `b`,
the rates converter returns exactly the claimed row: every currency `c`
of `q` gets `q[c] / q[b]` and the base is forced to exactly 1 (even when
the base is "USD", since `setdefault` then keeps the forced 1).  The
quotes converter satisfies the claim only away from "USD": its "USD"
entry is always overwritten with `1 / q[b]`, and when the base itself is
"USD" that overwrite even replaces the forced 1. -/
theorem c1_base_conversion (bq br : List (String × PyVal)) (q m : Dict ℚ)
    (base : String) (vbq vbm : ℚ)
    (hpq : parseQuotesBlock bq = some q) (hfq : Dict.find? q base = some vbq)
    (_hvq : vbq ≠ 0)
    (hpr : parseRatesBlock br = some m) (hfr : Dict.find? m base = some vbm)
    (_hvm : vbm ≠ 0) :
    convertQuotesBlockToBase bq base = some (quotesBaseRow q vbq base) ∧
    (∀ c x, c ≠ base → c ≠ "USD" → Dict.find? q c = some x →
      Dict.find? (quotesBaseRow q vbq base) c = some (x / vbq)) ∧
    Dict.find? (quotesBaseRow q vbq base) "USD" = some (1 / vbq) ∧
    (base ≠ "USD" → Dict.find? (quotesBaseRow q vbq base) base = some 1) ∧
    convertRatesBlockToBase br base = some (ratesBaseRow m vbm base) ∧
    (∀ c x, c ≠ base → Dict.find? m c = some x →
      Dict.find? (ratesBaseRow m vbm base) c = some (x / vbm)) ∧
    Dict.find? (ratesBaseRow m vbm base) base = some 1 := by
  refine ⟨?_, ?_, ?_, ?_, ?_, ?_, ?_⟩
  · simp only [convertQuotesBlockToBase, hpq, hfq]
  · intro c x hcb hcu hfc
    unfold quotesBaseRow
    rw [Dict.find?_insert_ne _ _ _ _ (fun h => hcu h.symm),
      Dict.find?_insert_ne _ _ _ _ (fun h => hcb h.symm),
      Dict.find?_mapVal, hfc]
    rfl
  · exact Dict.find?_insert_self _ _ _
  · intro hbu
    unfold quotesBaseRow
    rw [Dict.find?_insert_ne _ _ _ _ (fun h => hbu h.symm),
      Dict.find?_insert_self]
  · simp only [convertRatesBlockToBase, hpr, hfr]
  · intro c x hcb hfc
    unfold ratesBaseRow
    by_cases hcu : c = "USD"
    · subst hcu
      have hcont : Dict.contains (Dict.insert (Dict.mapVal (· / vbm) m) base 1) "USD" = true := by
        rw [Dict.contains_insert]
        exact Or.inl (by
          rw [Dict.contains_mapVal]
          exact (Dict.contains_iff_find? m "USD").mpr ⟨x, hfc⟩)
      rw [Dict.setdefault_of_contains _ _ _ hcont,
        Dict.find?_insert_ne _ _ _ _ (fun h => hcb h.symm),
        Dict.find?_mapVal, hfc]
      rfl
    · rw [Dict.find?_setdefault_ne _ _ _ _ (fun h => hcu h.symm),
        Dict.find?_insert_ne _ _ _ _ (fun h => hcb h.symm),
        Dict.find?_mapVal, hfc]
      rfl
  · unfold ratesBaseRow
    by_cases hbu : base = "USD"
    · subst hbu
      have hcont : Dict.contains (Dict.insert (Dict.mapVal (· / vbm) m) "USD" 1) "USD" = true := by
        rw [Dict.contains_insert]
        exact Or.inr rfl
      rw [Dict.setdefault_of_contains _ _ _ hcont, Dict.find?_insert_self]
    · rw [Dict.find?_setdefault_ne _ _ _ _ (fun h => hbu h.symm),
        Dict.find?_insert_self]

/-- Witness for `c1_base_conversion` at a concrete two-currency day with
base "GBP". -/
theorem c1_base_conversion_witness :
    convertQuotesBlockToBase [("USDEUR", PyVal.num 2), ("USDGBP", PyVal.num 4)] "GBP"
      = some (quotesBaseRow [("EUR", 2), ("GBP", 4)] 4 "GBP") ∧
    (∀ c x, c ≠ "GBP" → c ≠ "USD" →
      Dict.find? [("EUR", (2:ℚ)), ("GBP", 4)] c = some x →
      Dict.find? (quotesBaseRow [("EUR", 2), ("GBP", 4)] 4 "GBP") c = some (x / 4)) ∧
    Dict.find? (quotesBaseRow [("EUR", 2), ("GBP", 4)] 4 "GBP") "USD" = some (1 / 4) ∧
    ("GBP" ≠ "USD" →
      Dict.find? (quotesBaseRow [("EUR", 2), ("GBP", 4)] 4 "GBP") "GBP" = some 1) ∧
    convertRatesBlockToBase [("EUR", PyVal.num 2), ("GBP", PyVal.num 4)] "GBP"
      = some (ratesBaseRow [("EUR", 2), ("GBP", 4)] 4 "GBP") ∧
    (∀ c x, c ≠ "GBP" →
      Dict.find? [("EUR", (2:ℚ)), ("GBP", 4)] c = some x →
      Dict.find? (ratesBaseRow [("EUR", 2), ("GBP", 4)] 4 "GBP") c = some (x / 4)) ∧
    Dict.find? (ratesBaseRow [("EUR", 2), ("GBP", 4)] 4 "GBP") "GBP" = some 1 :=
  c1_base_conversion
    [("USDEUR", PyVal.num 2), ("USDGBP", PyVal.num 4)]
    [("EUR", PyVal.num 2), ("GBP", PyVal.num 4)]
    [("EUR", 2), ("GBP", 4)] [("EUR", 2), ("GBP", 4)] "GBP" 4 4
    (by simp +decide only [parseQuotesBlock, parseBlockAux, pyFloat, Dict.insert,
      Dict.contains, lastChars, List.map, if_true, if_false])
    (by simp +decide only [Dict.find?])
    (by norm_num)
    (by simp +decide only [parseRatesBlock, parseBlockAux, pyFloat, Dict.insert,
      Dict.contains, List.map, if_true, if_false])
    (by simp +decide only [Dict.find?])
    (by norm_num)

/-- Entry-keeping map is the identity when the key is absent. -/
theorem Dict.mapRepl_of_not_contains (d : Dict α) (k : String) (v : α)
    (h : Dict.contains d k = false) :
    d.map (fun p => if p.1 = k then (k, v) else p) = d := by
  induction d with
  | nil => rfl
  | cons p rest ih =>
    obtain ⟨k', w⟩ := p
    by_cases hk : k' = k
    · rw [hk] at h
      simp at h
    · simp only [Dict.contains_cons, if_neg hk] at h
      simp [hk, ih h]

/-- Writing back the value a key already holds leaves the dict unchanged
(for dicts with unique keys, as all dicts built by the code are). -/
theorem Dict.insert_eq_self_of_find? (d : Dict α) (k : String) (v : α)
    (hnd : List.Nodup (Dict.keys d)) (h : Dict.find? d k = some v) :
    Dict.insert d k v = d := by
  have hc : Dict.contains d k = true := (Dict.contains_iff_find? d k).mpr ⟨v, h⟩
  unfold Dict.insert
  rw [if_pos hc]
  induction d with
  | nil => simp at hc
  | cons p rest ih =>
    obtain ⟨k', w⟩ := p
    simp only [Dict.keys_cons, List.nodup_cons] at hnd
    by_cases hk : k' = k
    · subst hk
      simp only [Dict.find?_cons, eq_self_iff_true, if_true, Option.some.injEq] at h
      subst h
      have hrest : Dict.contains rest k' = false := by
        rw [Bool.eq_false_iff]
        intro hcon
        exact hnd.1 ((Dict.contains_iff_mem_keys rest k').mp hcon)
      simp [Dict.mapRepl_of_not_contains rest k' w hrest]
    · simp only [Dict.find?_cons, if_neg hk] at h
      simp only [Dict.contains_cons, if_neg hk] at hc
      simp [hk, ih hnd.2 h hc]

/-- When the key is absent, assignment and setdefault append identically. -/
theorem Dict.insert_eq_setdefault_of_not_contains (d : Dict α) (k : String) (v : α)
    (h : Dict.contains d k = false) : Dict.insert d k v = Dict.setdefault d k v := by
  unfold Dict.insert Dict.setdefault
  rw [h]
  simp

/-- Keys of the rows built by the two converters coincide. -/
theorem keys_quotesBaseRow_eq_ratesBaseRow (q : Dict ℚ) (vb : ℚ) (base : String) :
    Dict.keys (quotesBaseRow q vb base) = Dict.keys (ratesBaseRow q vb base) := by
  unfold quotesBaseRow ratesBaseRow
  simp only [Dict.keys_insert, Dict.keys_setdefault]

/-- The pair-code wire shape for a bare-code record: each bare key `k`
becomes the concatenated pair key `pivot ++ k` with the same value. -/
def pairize (pivot : String) (b : List (String × PyVal)) : List (String × PyVal) :=
  b.map (fun p => (pivot ++ p.1, p.2))

theorem lastChars_append_three (pivot k : String) (hp : pivot.data.length = 3)
    (h : k.data.length = 3) : lastChars (pivot ++ k) 3 = k := by
  unfold lastChars
  rw [String.data_append, List.length_append, hp, h,
    show (3:Nat) + 3 - 3 = pivot.data.length from by rw [hp]]
  rw [List.drop_left]

/-- Parsing the pair-code encoding of a bare-code record with 3-letter
codes produces exactly the same dict as parsing the bare record. -/
theorem parse_pairize (m : Dict ℚ) (hk : ∀ k ∈ Dict.keys m, k.data.length = 3) :
    ∀ acc : Dict ℚ,
      parseBlockAux (fun k => lastChars k 3) (pairize "USD" (Dict.mapVal PyVal.num m)) acc
        = parseBlockAux (fun k => k) (Dict.mapVal PyVal.num m) acc := by
  induction m with
  | nil => intro acc; rfl
  | cons p rest ih =>
    intro acc
    obtain ⟨k, x⟩ := p
    have hk0 : k.data.length = 3 := hk k (by simp)
    simp only [Dict.mapVal_cons, pairize, List.map_cons, parseBlockAux, pyFloat]
    rw [lastChars_append_three "USD" k rfl hk0]
    exact ih (fun k' hk' => hk k' (by simp [hk'])) _

/-- C2: the claim is falsified with base "GBP" by the equivalent records
bare `USD = 3, GBP = 1/2` and pair-code `USDUSD = 3, USDGBP = 1/2`: the
bare-schema result keeps `USD = 6` from the conversion loop, while the
pair-code result overwrites it with `1 / q[GBP] = 2`. -/
theorem c2_counterexample :
    convertRatesBlockToBase [("USD", PyVal.num 3), ("GBP", PyVal.num (1/2))] "GBP"
      = some [("USD", 6), ("GBP", 1)] ∧
    convertQuotesBlockToBase [("USDUSD", PyVal.num 3), ("USDGBP", PyVal.num (1/2))] "GBP"
      = some [("USD", 2), ("GBP", 1)] ∧
    ([("USD", (6:ℚ)), ("GBP", 1)] : Dict ℚ) ≠ [("USD", 2), ("GBP", 1)] := by
  refine ⟨?_, ?_, ?_⟩
  · simp +decide only [convertRatesBlockToBase, parseRatesBlock, parseBlockAux,
      pyFloat, Dict.insert, Dict.contains, Dict.find?, Dict.mapVal, ratesBaseRow,
      Dict.setdefault, List.map, if_true, if_false]
    norm_num
  · simp +decide only [convertQuotesBlockToBase, parseQuotesBlock, parseBlockAux,
      pyFloat, Dict.insert, Dict.contains, Dict.find?, Dict.mapVal, quotesBaseRow,
      lastChars, List.map, if_true, if_false]
    norm_num
  · intro h
    have := List.head_eq_of_cons_eq h
    have h6 : (6 : ℚ) = 2 := congrArg Prod.snd this
    norm_num at h6

/-- C2 (amended): for equivalent one-day records — a bare-code record `m`
with 3-letter codes and its pair-code encoding under the "USD" pivot —
and any base present in the record, the two converters parse identical
DayQuotes and produce BaseRows with identical keys that agree at every
currency except possibly "USD"; the rows are fully identical exactly when
the record has no "USD" entry or its "USD" entry is 1 (the pivot
self-rate the provider actually sends). -/
theorem c2_schema_equivalence (m q : Dict ℚ) (base : String) (vb : ℚ)
    (hk : ∀ k ∈ Dict.keys m, k.data.length = 3)
    (hnd : List.Nodup (Dict.keys q))
    (hq : parseRatesBlock (Dict.mapVal PyVal.num m) = some q)
    (hf : Dict.find? q base = some vb) (hvb : vb ≠ 0) :
    parseQuotesBlock (pairize "USD" (Dict.mapVal PyVal.num m)) = some q ∧
    convertQuotesBlockToBase (pairize "USD" (Dict.mapVal PyVal.num m)) base
      = some (quotesBaseRow q vb base) ∧
    convertRatesBlockToBase (Dict.mapVal PyVal.num m) base
      = some (ratesBaseRow q vb base) ∧
    Dict.keys (quotesBaseRow q vb base) = Dict.keys (ratesBaseRow q vb base) ∧
    (∀ c, c ≠ "USD" →
      Dict.find? (quotesBaseRow q vb base) c = Dict.find? (ratesBaseRow q vb base) c) ∧
    ((Dict.contains q "USD" = false ∨ Dict.find? q "USD" = some 1) ↔
      quotesBaseRow q vb base = ratesBaseRow q vb base) := by
  have hpq : parseQuotesBlock (pairize "USD" (Dict.mapVal PyVal.num m)) = some q := by
    unfold parseQuotesBlock
    rw [parse_pairize m hk []]
    exact hq
  have hcb : Dict.contains q base = true := (Dict.contains_iff_find? q base).mpr ⟨vb, hf⟩
  refine ⟨hpq, ?_, ?_, keys_quotesBaseRow_eq_ratesBaseRow q vb base, ?_, ?_⟩
  · simp only [convertQuotesBlockToBase, hpq, hf]
  · simp only [convertRatesBlockToBase, hq, hf]
  · intro c hcu
    unfold quotesBaseRow ratesBaseRow
    rw [Dict.find?_insert_ne _ _ _ _ (fun h => hcu h.symm),
      Dict.find?_setdefault_ne _ _ _ _ (fun h => hcu h.symm)]
  · constructor
    · intro hcond
      have hDkeys : Dict.keys (Dict.insert (Dict.mapVal (· / vb) q) base 1)
          = Dict.keys q := by
        rw [Dict.keys_insert]
        have : Dict.contains (Dict.mapVal (· / vb) q) base = true := by
          rw [Dict.contains_mapVal]
          exact hcb
        rw [if_pos this, Dict.keys_mapVal]
      rcases hcond with habs | hone
      · have hbu : base ≠ "USD" := by
          intro h
          rw [h] at hcb
          rw [hcb] at habs
          cases habs
        have hDnc : Dict.contains (Dict.insert (Dict.mapVal (· / vb) q) base 1) "USD"
            = false := by
          rw [Bool.eq_false_iff]
          intro hcon
          rcases (Dict.contains_insert _ _ _ _).mp hcon with hc | hc
          · rw [Dict.contains_mapVal, habs] at hc
            cases hc
          · exact hbu hc
        unfold quotesBaseRow ratesBaseRow
        exact Dict.insert_eq_setdefault_of_not_contains _ _ _ hDnc
      · have hDf : Dict.find? (Dict.insert (Dict.mapVal (· / vb) q) base 1) "USD"
            = some (1 / vb) := by
          by_cases hbu : base = "USD"
          · subst hbu
            have hvb1 : vb = 1 := by
              rw [hf] at hone
              exact Option.some.inj hone
            rw [hvb1, Dict.find?_insert_self]
            norm_num
          · rw [Dict.find?_insert_ne _ _ _ _ (fun h => hbu h),
              Dict.find?_mapVal, hone]
            simp
        have hDnd : List.Nodup (Dict.keys (Dict.insert (Dict.mapVal (· / vb) q) base 1)) := by
          rw [hDkeys]
          exact hnd
        have hDc : Dict.contains (Dict.insert (Dict.mapVal (· / vb) q) base 1) "USD"
            = true := by
          rw [Dict.contains_iff_find?]
          exact ⟨_, hDf⟩
        unfold quotesBaseRow ratesBaseRow
        rw [Dict.setdefault_of_contains _ _ _ hDc,
          Dict.insert_eq_self_of_find? _ _ _ hDnd hDf]
    · intro heq
      by_cases hcu : Dict.contains q "USD" = true
      · right
        obtain ⟨u, hu⟩ := (Dict.contains_iff_find? q "USD").mp hcu
        rw [hu]
        have h1 : Dict.find? (quotesBaseRow q vb base) "USD" = some (1 / vb) :=
          Dict.find?_insert_self _ _ _
        have hcontD : Dict.contains (Dict.insert (Dict.mapVal (· / vb) q) base 1) "USD"
            = true := by
          rw [Dict.contains_insert]
          exact Or.inl (by rw [Dict.contains_mapVal]; exact hcu)
        have h2 : ratesBaseRow q vb base = Dict.insert (Dict.mapVal (· / vb) q) base 1 := by
          unfold ratesBaseRow
          exact Dict.setdefault_of_contains _ _ _ hcontD
        by_cases hbu : base = "USD"
        · subst hbu
          have huvb : u = vb := by
            rw [hf] at hu
            exact (Option.some.inj hu).symm
          have h3 : Dict.find? (ratesBaseRow q vb "USD") "USD" = some 1 := by
            rw [h2]
            exact Dict.find?_insert_self _ _ _
          rw [heq, h3] at h1
          have h4 : (1 : ℚ) = 1 / vb := Option.some.inj h1
          have hvb1 : vb = 1 := by
            field_simp at h4
            exact h4
          rw [huvb, hvb1]
        · have h3 : Dict.find? (ratesBaseRow q vb base) "USD" = some (u / vb) := by
            rw [h2, Dict.find?_insert_ne _ _ _ _ (fun h => hbu h),
              Dict.find?_mapVal, hu]
            rfl
          rw [heq, h3] at h1
          have h4 : u / vb = 1 / vb := Option.some.inj h1
          have hu1 : u = 1 := by
            field_simp [hvb] at h4
            exact h4
          rw [hu1]
      · left
        exact Bool.eq_false_iff.mpr hcu

/-- Witness for `c2_schema_equivalence` at the record `EUR = 2, GBP = 4`
(no "USD" entry) with base "GBP". -/
theorem c2_schema_equivalence_witness :
    parseQuotesBlock (pairize "USD" (Dict.mapVal PyVal.num [("EUR", 2), ("GBP", 4)]))
      = some [("EUR", 2), ("GBP", 4)] ∧
    convertQuotesBlockToBase (pairize "USD" (Dict.mapVal PyVal.num [("EUR", 2), ("GBP", 4)])) "GBP"
      = some (quotesBaseRow [("EUR", 2), ("GBP", 4)] 4 "GBP") ∧
    convertRatesBlockToBase (Dict.mapVal PyVal.num [("EUR", 2), ("GBP", 4)]) "GBP"
      = some (ratesBaseRow [("EUR", 2), ("GBP", 4)] 4 "GBP") ∧
    Dict.keys (quotesBaseRow [("EUR", 2), ("GBP", 4)] 4 "GBP")
      = Dict.keys (ratesBaseRow [("EUR", 2), ("GBP", 4)] 4 "GBP") ∧
    (∀ c, c ≠ "USD" →
      Dict.find? (quotesBaseRow [("EUR", 2), ("GBP", 4)] 4 "GBP") c
        = Dict.find? (ratesBaseRow [("EUR", 2), ("GBP", 4)] 4 "GBP") c) ∧
    ((Dict.contains [("EUR", (2:ℚ)), ("GBP", 4)] "USD" = false ∨
      Dict.find? [("EUR", (2:ℚ)), ("GBP", 4)] "USD" = some 1) ↔
      quotesBaseRow [("EUR", 2), ("GBP", 4)] 4 "GBP"
        = ratesBaseRow [("EUR", 2), ("GBP", 4)] 4 "GBP") :=
  c2_schema_equivalence [("EUR", 2), ("GBP", 4)] [("EUR", 2), ("GBP", 4)] "GBP" 4
    (by
      intro k hk
      simp only [Dict.keys_cons, Dict.keys_nil, List.mem_cons] at hk
      rcases hk with h | h | h
      · rw [h]
        decide
      · rw [h]
        decide
      · simp at h)
    (by simp +decide)
    (by simp +decide only [parseRatesBlock, parseBlockAux, pyFloat, Dict.insert,
      Dict.contains, Dict.mapVal, List.map, if_true, if_false])
    (by simp +decide only [Dict.find?])
    (by norm_num)

/-- C3: the claim is falsified: on a payload with neither a `rates` nor a
`quotes` key, the Series Assembler `timeframe_to_dataframe` does not raise
— it silently returns the empty Series. -/
theorem c3_counterexample :
    timeframe_to_dataframe ⟨none, none⟩ "GBP" = some ⟨[], []⟩ := rfl

/-- C3 (amended): the neither-key check lives upstream in
`fetch_timeframe`, which raises before the Assembler ever runs; the
Assembler itself, called directly on such a payload, returns the empty
Series rather than raising. -/
theorem c3_schema_check_location (p : Payload) (base : String)
    (hq : p.quotes = none) (hr : p.rates = none) :
    fetchSchemaCheck p
      = Except.error "Unexpected API response: missing rates/quotes." ∧
    timeframe_to_dataframe p base = some ⟨[], []⟩ := by
  obtain ⟨pq, pr⟩ := p
  simp only at hq hr
  subst hq
  subst hr
  exact ⟨rfl, rfl⟩

/-- Witness for `c3_schema_check_location` at the empty payload. -/
theorem c3_schema_check_location_witness :
    fetchSchemaCheck ⟨none, none⟩
      = Except.error "Unexpected API response: missing rates/quotes." ∧
    timeframe_to_dataframe ⟨none, none⟩ "EUR" = some ⟨[], []⟩ :=
  c3_schema_check_location ⟨none, none⟩ "EUR" rfl rfl

/-- C5: the claim is falsified: a single non-coercible value does not drop
just that entry — `float` raises and the whole day's conversion call
aborts, under both converters. -/
theorem c5_counterexample :
    convertRatesBlockToBase
      [("EUR", PyVal.num (9/10)), ("BAD", PyVal.nonNumScalar "na")] "EUR" = none ∧
    convertQuotesBlockToBase
      [("USDEUR", PyVal.num (9/10)), ("USDBAD", PyVal.nonNumScalar "na")] "EUR" = none := by
  constructor
  · simp +decide only [convertRatesBlockToBase, parseRatesBlock, parseBlockAux,
      pyFloat, Dict.insert, Dict.contains, List.map, if_true, if_false]
  · simp +decide only [convertQuotesBlockToBase, parseQuotesBlock, parseBlockAux,
      pyFloat, Dict.insert, Dict.contains, lastChars, List.map, if_true, if_false]

/-- C5 (amended): a value that fails numeric coercion raises an uncaught
exception that aborts the entire conversion of the day (and with it the
whole assembly call), for both converters; the entry is not skipped. -/
theorem c5_coercion_failure_aborts_call (b : List (String × PyVal)) (base : String)
    (e : String × PyVal) (he : e ∈ b) (hbad : pyFloat e.2 = none) :
    convertQuotesBlockToBase b base = none ∧
    convertRatesBlockToBase b base = none := by
  constructor
  · simp only [convertQuotesBlockToBase, parseQuotesBlock,
      parseBlockAux_eq_none_of_bad (fun k => lastChars k 3) b [] ⟨e, he, hbad⟩]
  · simp only [convertRatesBlockToBase, parseRatesBlock,
      parseBlockAux_eq_none_of_bad (fun k => k) b [] ⟨e, he, hbad⟩]

/-- Witness for `c5_coercion_failure_aborts_call` at a two-entry day whose
second value is a non-numeric string. -/
theorem c5_coercion_failure_aborts_call_witness :
    convertQuotesBlockToBase
      [("EUR", PyVal.num 1), ("BAD", PyVal.nonNumScalar "oops")] "EUR" = none ∧
    convertRatesBlockToBase
      [("EUR", PyVal.num 1), ("BAD", PyVal.nonNumScalar "oops")] "EUR" = none :=
  c5_coercion_failure_aborts_call
    [("EUR", PyVal.num 1), ("BAD", PyVal.nonNumScalar "oops")] "EUR"
    ("BAD", PyVal.nonNumScalar "oops")
    (List.mem_cons_of_mem _ (List.mem_cons_self _ _)) rfl

/-- C6: the claim is falsified: a 4-character key "XEUR" is neither
rejected nor skipped — its last 3 characters are silently used as the
currency code "EUR", which ends up in the returned BaseRow. -/
theorem c6_counterexample :
    convertQuotesBlockToBase [("XEUR", PyVal.num 2), ("USDGBP", PyVal.num 1)] "GBP"
      = some [("EUR", 2), ("GBP", 1), ("USD", 1)] ∧
    ("XEUR" : String).data.length < 6 ∧
    Dict.find? [("EUR", (2:ℚ)), ("GBP", 1), ("USD", 1)] "EUR" = some 2 := by
  refine ⟨?_, by decide, by simp +decide only [Dict.find?]⟩
  simp +decide only [convertQuotesBlockToBase, parseQuotesBlock, parseBlockAux,
    pyFloat, Dict.insert, Dict.contains, Dict.find?, Dict.mapVal, quotesBaseRow,
    lastChars, List.map, if_true, if_false]
  norm_num

/-- C6 (amended): keys shorter than 6 characters are not rejected or
skipped: the Quote Parser unconditionally takes the last
`min(3, length)` characters of every key as the currency code, so a short
key contributes an entry under its sliced name. -/
theorem c6_short_keys_sliced (k : String) (x : ℚ) (_hk : k.data.length < 6) :
    parseQuotesBlock [(k, PyVal.num x)] = some [(lastChars k 3, x)] := by
  simp [parseQuotesBlock, parseBlockAux, pyFloat, Dict.insert]

/-- Witness for `c6_short_keys_sliced` at the 3-character key "EUR". -/
theorem c6_short_keys_sliced_witness :
    parseQuotesBlock [("EUR", PyVal.num 7)] = some [(lastChars "EUR" 3, 7)] :=
  c6_short_keys_sliced "EUR" 7 (by decide)

/-- C7: the claim is falsified by the quotes converter: on the day
`USDUSD = 5, USDGBP = 1/2` with base "GBP" the main loop produces
`USD = 5 / (1/2) = 10`, but the returned row carries `USD = 2 = 1 / (1/2)`
— the loop value was overwritten, not left unchanged. -/
theorem c7_counterexample :
    convertQuotesBlockToBase [("USDUSD", PyVal.num 5), ("USDGBP", PyVal.num (1/2))] "GBP"
      = some [("USD", 2), ("GBP", 1)] ∧
    Dict.find? (Dict.mapVal (· / ((1:ℚ)/2)) [("USD", 5), ("GBP", 1/2)]) "USD"
      = some 10 ∧
    (2 : ℚ) ≠ 10 := by
  refine ⟨?_, ?_, by norm_num⟩
  · simp +decide only [convertQuotesBlockToBase, parseQuotesBlock, parseBlockAux,
      pyFloat, Dict.insert, Dict.contains, Dict.find?, Dict.mapVal, quotesBaseRow,
      lastChars, List.map, if_true, if_false]
    norm_num
  · simp +decide only [Dict.mapVal, Dict.find?, List.map]
    norm_num

/-- C7 (amended): both converters guarantee a "USD" entry, but only the
rates converter has the claimed set-only-if-absent semantics
(`setdefault`): a loop-produced USD value is kept there, and `1 / q[b]` is
used only when USD is absent.  The quotes converter instead always
overwrites "USD" with `1 / q[b]`. -/
theorem c7_usd_entry_semantics (m : Dict ℚ) (base : String) (vb : ℚ)
    (hf : Dict.find? m base = some vb) (_hvb : vb ≠ 0) :
    Dict.find? (quotesBaseRow m vb base) "USD" = some (1 / vb) ∧
    (∀ x, base ≠ "USD" → Dict.find? m "USD" = some x →
      Dict.find? (ratesBaseRow m vb base) "USD" = some (x / vb)) ∧
    (Dict.contains m "USD" = false →
      Dict.find? (ratesBaseRow m vb base) "USD" = some (1 / vb)) := by
  refine ⟨Dict.find?_insert_self _ _ _, ?_, ?_⟩
  · intro x hbu hfx
    unfold ratesBaseRow
    have hcont : Dict.contains (Dict.insert (Dict.mapVal (· / vb) m) base 1) "USD" = true := by
      rw [Dict.contains_insert]
      exact Or.inl (by
        rw [Dict.contains_mapVal]
        exact (Dict.contains_iff_find? m "USD").mpr ⟨x, hfx⟩)
    rw [Dict.setdefault_of_contains _ _ _ hcont,
      Dict.find?_insert_ne _ _ _ _ (fun h => hbu h),
      Dict.find?_mapVal, hfx]
    rfl
  · intro habs
    have hbu : base ≠ "USD" := by
      intro h
      have hcb : Dict.contains m base = true :=
        (Dict.contains_iff_find? m base).mpr ⟨vb, hf⟩
      rw [h] at hcb
      rw [hcb] at habs
      cases habs
    have hDnc : Dict.contains (Dict.insert (Dict.mapVal (· / vb) m) base 1) "USD"
        = false := by
      rw [Bool.eq_false_iff]
      intro hcon
      rcases (Dict.contains_insert _ _ _ _).mp hcon with hc | hc
      · rw [Dict.contains_mapVal, habs] at hc
        cases hc
      · exact hbu hc
    unfold ratesBaseRow
    exact Dict.find?_setdefault_self_of_not_contains _ _ _ hDnc

/-- Witness for `c7_usd_entry_semantics` at the record `GBP = 4, EUR = 2`
(no "USD" entry) with base "GBP". -/
theorem c7_usd_entry_semantics_witness :
    Dict.find? (quotesBaseRow [("GBP", 4), ("EUR", 2)] 4 "GBP") "USD" = some (1 / 4) ∧
    (∀ x, "GBP" ≠ "USD" → Dict.find? [("GBP", (4:ℚ)), ("EUR", 2)] "USD" = some x →
      Dict.find? (ratesBaseRow [("GBP", 4), ("EUR", 2)] 4 "GBP") "USD" = some (x / 4)) ∧
    (Dict.contains [("GBP", (4:ℚ)), ("EUR", 2)] "USD" = false →
      Dict.find? (ratesBaseRow [("GBP", 4), ("EUR", 2)] 4 "GBP") "USD" = some (1 / 4)) :=
  c7_usd_entry_semantics [("GBP", 4), ("EUR", 2)] "GBP" 4
    (by simp +decide only [Dict.find?]) (by norm_num)

/-- C8: the nesting-unwrap branch can never unwrap.  A day record nested
one level under a repeated `rates` key is itself a dict, so the
`not isinstance(block, dict)` guard skips the unwrap and hands the wrapper
dict to the converter, where `float` of a dict raises `TypeError` and the
whole Assembler call aborts — instead of unwrapping and converting the
inner mapping as the claim (and the code comment) intend. -/
theorem c8_nested_day_record_raises :
    unwrapOrRaise (PyVal.dict [("rates", PyVal.dict [("GBP", PyVal.num (39/50))])])
      = some [("rates", PyVal.dict [("GBP", PyVal.num (39/50))])] ∧
    timeframe_to_dataframe
      ⟨none, some [("2024-01-01",
        PyVal.dict [("rates", PyVal.dict [("GBP", PyVal.num (39/50))])])]⟩ "GBP"
      = none := by
  constructor
  · rfl
  · simp +decide only [timeframe_to_dataframe, container, buildRows, unwrapOrRaise,
      convertBlock, convertRatesBlockToBase, parseRatesBlock, parseBlockAux, pyFloat,
      Option.isSome_none, Option.isSome_some, Bool.false_eq_true, if_true, if_false]

/-- C10: on a payload whose `quotes` key maps to an empty object while a
non-empty `rates` mapping is present, the container is the `rates` block
(chosen by truthiness) yet dispatch picks the quotes converter (chosen by
presence), so the call behaves exactly as if the `rates` data had arrived
under `quotes`. -/
theorem c10_truthiness_schema_mismatch (m : List (String × PyVal)) (base : String)
    (hm : m ≠ []) :
    container ⟨some [], some m⟩ = m ∧
    (Payload.mk (some []) (some m)).quotes.isSome = true ∧
    timeframe_to_dataframe ⟨some [], some m⟩ base
      = timeframe_to_dataframe ⟨some m, none⟩ base := by
  have hc2 : container ⟨some m, none⟩ = m := by
    cases m with
    | nil => exact absurd rfl hm
    | cons p rest => rfl
  refine ⟨rfl, rfl, ?_⟩
  simp only [timeframe_to_dataframe, hc2]
  rfl

/-- Witness for `c10_truthiness_schema_mismatch` at a one-day `rates`
mapping. -/
theorem c10_truthiness_schema_mismatch_witness :
    container ⟨some [], some [("2024-01-01", PyVal.dict [("EUR", PyVal.num 1)])]⟩
      = [("2024-01-01", PyVal.dict [("EUR", PyVal.num 1)])] ∧
    (Payload.mk (some [])
      (some [("2024-01-01", PyVal.dict [("EUR", PyVal.num 1)])])).quotes.isSome = true ∧
    timeframe_to_dataframe
        ⟨some [], some [("2024-01-01", PyVal.dict [("EUR", PyVal.num 1)])]⟩ "GBP"
      = timeframe_to_dataframe
        ⟨some [("2024-01-01", PyVal.dict [("EUR", PyVal.num 1)])], none⟩ "GBP" :=
  c10_truthiness_schema_mismatch
    [("2024-01-01", PyVal.dict [("EUR", PyVal.num 1)])] "GBP" (by simp)

/-- Day-level membership of the assembled Series: under either schema, a
day whose record (a flat numeric dict) yields no parsed key equal to the
base is absent from the result, and a day that does yield the base is
present; the call itself succeeds. -/
theorem timeframe_day_membership (useQ : Bool) (p : Payload)
    (m : List (String × PyVal)) (base : String)
    (hcont : container p = m) (hq : p.quotes.isSome = useQ)
    (hwf : ∀ q ∈ m, wfBlockB q.2 = true)
    (hnd : List.Nodup (m.map Prod.fst)) :
    ∃ df, timeframe_to_dataframe p base = some df ∧
      (∀ d b, (d, PyVal.dict b) ∈ m → (∀ e ∈ b, sliceKey useQ e.1 ≠ base) →
        d ∉ df.rows.map Prod.fst) ∧
      (∀ d b, (d, PyVal.dict b) ∈ m → (∃ e ∈ b, sliceKey useQ e.1 = base) →
        d ∈ df.rows.map Prod.fst) := by
  obtain ⟨rows, hrows⟩ := buildRows_some_of_wf useQ base m hwf
  have ht : timeframe_to_dataframe p base
      = match buildRows useQ base m with
        | none => none
        | some rows =>
          if rows.isEmpty then some ⟨[], []⟩
          else
            some ⟨List.insertionSort rowLe rows,
              base :: List.insertionSort strLe
                (List.filter (fun c => decide (c ≠ base)) (colUnion rows))⟩ := by
    unfold timeframe_to_dataframe
    rw [hcont, hq]
  rw [hrows] at ht
  have hnumOf : ∀ d b, (d, PyVal.dict b) ∈ m → ∀ e ∈ b, numericEntry e = true := by
    intro d b hmem
    obtain ⟨b', hb', hnum⟩ := wfBlockB_elim (hwf _ hmem)
    obtain rfl : b = b' := PyVal.dict.inj hb'
    exact hnum
  have hpres : ∀ d b, (d, PyVal.dict b) ∈ m → (∃ e ∈ b, sliceKey useQ e.1 = base) →
      d ∈ rows.map Prod.fst := by
    intro d b hmem hex
    obtain ⟨row, hrow, hrowne⟩ :=
      convertBlock_eq_row useQ b base (hnumOf d b hmem) hex
    exact buildRows_present useQ base m rows d (PyVal.dict b) b row hrows hmem rfl
      hrow hrowne
  have habs : ∀ d b, (d, PyVal.dict b) ∈ m → (∀ e ∈ b, sliceKey useQ e.1 ≠ base) →
      d ∉ rows.map Prod.fst := by
    intro d b hmem hno
    refine buildRows_absent useQ base d m rows hrows ?_
    intro v hv
    obtain rfl : PyVal.dict b = v :=
      snd_eq_of_nodup_keys m d (PyVal.dict b) v hnd hmem hv
    exact ⟨b, rfl, convertBlock_eq_skip useQ b base (hnumOf d b hmem) hno⟩
  cases rows with
  | nil =>
    simp only [List.isEmpty_nil, if_true] at ht
    refine ⟨⟨[], []⟩, ht, ?_, ?_⟩
    · intro d b _ _
      simp
    · intro d b hmem hex
      exact absurd (hpres d b hmem hex) (by simp)
  | cons r rs =>
    simp only [List.isEmpty_cons, Bool.false_eq_true, if_false] at ht
    refine ⟨_, ht, ?_, ?_⟩
    · intro d b hmem hno hmem'
      have hperm := (List.perm_insertionSort rowLe (r :: rs)).map Prod.fst
      exact habs d b hmem hno (hperm.mem_iff.mp hmem')
    · intro d b hmem hex
      have hperm := (List.perm_insertionSort rowLe (r :: rs)).map Prod.fst
      exact hperm.mem_iff.mpr (hpres d b hmem hex)

/-- C4: under either schema, for a well-formed multi-day payload (flat
numeric day records, distinct dates), each date whose record lacks the
base currency — no bare key equal to the base in the rates schema, no
pair key slicing to the base in the quotes schema — is entirely absent
from the assembled Series, while dates whose records do contain the base
are present; the assembly call itself succeeds rather than aborting. -/
theorem c4_missing_base_days_dropped (m : List (String × PyVal)) (base : String)
    (hwf : ∀ p ∈ m, wfBlockB p.2 = true)
    (hnd : List.Nodup (m.map Prod.fst)) :
    (∃ df, timeframe_to_dataframe ⟨none, some m⟩ base = some df ∧
      (∀ d b, (d, PyVal.dict b) ∈ m → (∀ e ∈ b, e.1 ≠ base) →
        d ∉ df.rows.map Prod.fst) ∧
      (∀ d b, (d, PyVal.dict b) ∈ m → (∃ e ∈ b, e.1 = base) →
        d ∈ df.rows.map Prod.fst)) ∧
    (∃ df, timeframe_to_dataframe ⟨some m, none⟩ base = some df ∧
      (∀ d b, (d, PyVal.dict b) ∈ m → (∀ e ∈ b, lastChars e.1 3 ≠ base) →
        d ∉ df.rows.map Prod.fst) ∧
      (∀ d b, (d, PyVal.dict b) ∈ m → (∃ e ∈ b, lastChars e.1 3 = base) →
        d ∈ df.rows.map Prod.fst)) := by
  constructor
  · exact timeframe_day_membership false ⟨none, some m⟩ m base rfl rfl hwf hnd
  · have hcont : container ⟨some m, none⟩ = m := by
      cases m with
      | nil => rfl
      | cons p rest => rfl
    exact timeframe_day_membership true ⟨some m, none⟩ m base hcont rfl hwf hnd

/-- Witness for `c4_missing_base_days_dropped`: a two-day payload whose
second day lacks the base "GBP". -/
theorem c4_missing_base_days_dropped_witness :
    (∃ df, timeframe_to_dataframe
        ⟨none, some [("2024-01-01", PyVal.dict [("GBP", PyVal.num 4), ("EUR", PyVal.num 2)]),
          ("2024-01-02", PyVal.dict [("EUR", PyVal.num 2)])]⟩ "GBP" = some df ∧
      (∀ d b, (d, PyVal.dict b) ∈
          [("2024-01-01", PyVal.dict [("GBP", PyVal.num 4), ("EUR", PyVal.num 2)]),
            ("2024-01-02", PyVal.dict [("EUR", PyVal.num 2)])] →
        (∀ e ∈ b, e.1 ≠ "GBP") → d ∉ df.rows.map Prod.fst) ∧
      (∀ d b, (d, PyVal.dict b) ∈
          [("2024-01-01", PyVal.dict [("GBP", PyVal.num 4), ("EUR", PyVal.num 2)]),
            ("2024-01-02", PyVal.dict [("EUR", PyVal.num 2)])] →
        (∃ e ∈ b, e.1 = "GBP") → d ∈ df.rows.map Prod.fst)) ∧
    (∃ df, timeframe_to_dataframe
        ⟨some [("2024-01-01", PyVal.dict [("GBP", PyVal.num 4), ("EUR", PyVal.num 2)]),
          ("2024-01-02", PyVal.dict [("EUR", PyVal.num 2)])], none⟩ "GBP" = some df ∧
      (∀ d b, (d, PyVal.dict b) ∈
          [("2024-01-01", PyVal.dict [("GBP", PyVal.num 4), ("EUR", PyVal.num 2)]),
            ("2024-01-02", PyVal.dict [("EUR", PyVal.num 2)])] →
        (∀ e ∈ b, lastChars e.1 3 ≠ "GBP") → d ∉ df.rows.map Prod.fst) ∧
      (∀ d b, (d, PyVal.dict b) ∈
          [("2024-01-01", PyVal.dict [("GBP", PyVal.num 4), ("EUR", PyVal.num 2)]),
            ("2024-01-02", PyVal.dict [("EUR", PyVal.num 2)])] →
        (∃ e ∈ b, lastChars e.1 3 = "GBP") → d ∈ df.rows.map Prod.fst)) :=
  c4_missing_base_days_dropped
    [("2024-01-01", PyVal.dict [("GBP", PyVal.num 4), ("EUR", PyVal.num 2)]),
      ("2024-01-02", PyVal.dict [("EUR", PyVal.num 2)])] "GBP"
    (by
      intro p hp
      simp only [List.mem_cons, List.not_mem_nil, or_false] at hp
      rcases hp with h | h <;> rw [h] <;> rfl)
    (by decide)

theorem mem_colUnion (rows : List (String × Dict ℚ)) (c : String) :
    c ∈ colUnion rows ↔ ∃ r ∈ rows, Dict.contains r.2 c = true := by
  unfold colUnion
  rw [List.mem_dedup, List.mem_flatten]
  constructor
  · rintro ⟨l, hl, hc⟩
    obtain ⟨r, hr, rfl⟩ := List.mem_map.mp hl
    exact ⟨r, hr, (Dict.contains_iff_mem_keys _ _).mpr hc⟩
  · rintro ⟨r, hr, hc⟩
    exact ⟨Dict.keys r.2, List.mem_map_of_mem _ hr,
      (Dict.contains_iff_mem_keys _ _).mp hc⟩

/-- C9: for every non-empty assembled Series over a payload with distinct
date keys, the row dates are strictly ascending (sorted with no
duplicates), the first column is the base currency, the remaining columns
are strictly sorted lexicographically, and the column list holds exactly
the base plus every other currency appearing in some row. -/
theorem c9_series_invariants (p : Payload) (base : String) (df : DataFrame)
    (hnd : List.Nodup ((container p).map Prod.fst))
    (hdf : timeframe_to_dataframe p base = some df)
    (hne : df.rows ≠ []) :
    List.Pairwise strLt (df.rows.map Prod.fst) ∧
    df.cols.head? = some base ∧
    List.Pairwise strLt (df.cols.drop 1) ∧
    (∀ c, c ∈ df.cols ↔
      (c = base ∨ (c ≠ base ∧ ∃ r ∈ df.rows, Dict.contains r.2 c = true))) := by
  unfold timeframe_to_dataframe at hdf
  cases hbr : buildRows p.quotes.isSome base (container p) with
  | none =>
    rw [hbr] at hdf
    exact Option.noConfusion hdf
  | some rows =>
    rw [hbr] at hdf
    cases rows with
    | nil =>
      simp only [List.isEmpty_nil, if_true, Option.some.injEq] at hdf
      rw [← hdf] at hne
      exact absurd rfl hne
    | cons r rs =>
      simp only [List.isEmpty_cons, Bool.false_eq_true, if_false,
        Option.some.injEq] at hdf
      subst hdf
      have hpermRows := List.perm_insertionSort rowLe (r :: rs)
      have hpermDates := hpermRows.map Prod.fst
      have hpermCols :=
        List.perm_insertionSort strLe
          (List.filter (fun c => decide (c ≠ base)) (colUnion (r :: rs)))
      refine ⟨?_, rfl, ?_, ?_⟩
      · have hple : List.Pairwise (fun a b : String => strLe a b)
            ((List.insertionSort rowLe (r :: rs)).map Prod.fst) :=
          List.pairwise_map.mpr (List.sorted_insertionSort rowLe (r :: rs))
        have hnodup : List.Nodup ((List.insertionSort rowLe (r :: rs)).map Prod.fst) :=
          hpermDates.nodup_iff.mpr
            ((buildRows_dates_sublist _ _ _ _ hbr).nodup hnd)
        exact List.Pairwise.imp₂ (fun a b h1 h2 => ⟨h1, h2⟩) hple hnodup
      · simp only [List.drop_one, List.tail_cons]
        have hsorted : List.Pairwise (fun a b : String => strLe a b)
            (List.insertionSort strLe
              (List.filter (fun c => decide (c ≠ base)) (colUnion (r :: rs)))) :=
          List.sorted_insertionSort strLe _
        have hnodup : List.Nodup
            (List.insertionSort strLe
              (List.filter (fun c => decide (c ≠ base)) (colUnion (r :: rs)))) :=
          hpermCols.nodup_iff.mpr
            (List.Nodup.filter _ (List.nodup_dedup _))
        exact List.Pairwise.imp₂ (fun a b h1 h2 => ⟨h1, h2⟩) hsorted hnodup
      · intro c
        constructor
        · intro hc
          rcases List.mem_cons.mp hc with h | h
          · exact Or.inl h
          · right
            have hmem := hpermCols.mem_iff.mp h
            rw [List.mem_filter] at hmem
            obtain ⟨hcu, hcb⟩ := hmem
            refine ⟨by simpa using hcb, ?_⟩
            obtain ⟨rr, hr, hrc⟩ := (mem_colUnion _ c).mp hcu
            exact ⟨rr, hpermRows.mem_iff.mpr hr, hrc⟩
        · rintro (h | ⟨hcb, rr, hr, hrc⟩)
          · exact h ▸ List.mem_cons_self _ _
          · refine List.mem_cons_of_mem _ ?_
            refine hpermCols.mem_iff.mpr ?_
            rw [List.mem_filter]
            exact ⟨(mem_colUnion _ c).mpr ⟨rr, hpermRows.mem_iff.mp hr, hrc⟩,
              by simpa using hcb⟩

/-- Witness for `c9_series_invariants` at a one-day rates payload with
base "GBP", whose Series has columns GBP (base first), then EUR and USD
sorted. -/
theorem c9_series_invariants_witness :
    List.Pairwise strLt
      ((DataFrame.mk [("2024-01-01", [("GBP", 1), ("EUR", 1/2), ("USD", 1/4)])]
          ["GBP", "EUR", "USD"]).rows.map Prod.fst) ∧
    (DataFrame.mk [("2024-01-01", [("GBP", 1), ("EUR", 1/2), ("USD", 1/4)])]
        ["GBP", "EUR", "USD"]).cols.head? = some "GBP" ∧
    List.Pairwise strLt
      ((DataFrame.mk [("2024-01-01", [("GBP", 1), ("EUR", 1/2), ("USD", 1/4)])]
          ["GBP", "EUR", "USD"]).cols.drop 1) ∧
    (∀ c, c ∈ (DataFrame.mk [("2024-01-01", [("GBP", 1), ("EUR", 1/2), ("USD", 1/4)])]
          ["GBP", "EUR", "USD"]).cols ↔
      (c = "GBP" ∨ (c ≠ "GBP" ∧
        ∃ r ∈ (DataFrame.mk [("2024-01-01", [("GBP", 1), ("EUR", 1/2), ("USD", 1/4)])]
          ["GBP", "EUR", "USD"]).rows, Dict.contains r.2 c = true))) :=
  c9_series_invariants
    ⟨none, some [("2024-01-01", PyVal.dict [("GBP", PyVal.num 4), ("EUR", PyVal.num 2)])]⟩
    "GBP"
    ⟨[("2024-01-01", [("GBP", 1), ("EUR", 1/2), ("USD", 1/4)])], ["GBP", "EUR", "USD"]⟩
    (by decide)
    (by
      simp +decide only [timeframe_to_dataframe, container, buildRows, unwrapOrRaise,
        convertBlock, convertRatesBlockToBase, parseRatesBlock, parseBlockAux, pyFloat,
        Dict.insert, Dict.contains, Dict.find?, Dict.mapVal, Dict.keys, Dict.setdefault,
        ratesBaseRow, colUnion, List.map, List.flatten, List.filter, List.insertionSort,
        List.orderedInsert, rowLe, List.dedup_nil,
        Option.isSome_none, Option.isSome_some, Bool.false_eq_true, if_true, if_false,
        List.isEmpty_cons, List.isEmpty_nil, List.append_nil, List.nil_append]
      norm_num
      intro h
      exact absurd (by decide : strLe "EUR" "USD") h)
    (by simp)
